import Mathlib

/-!
# Verification of the sync-profile streaming statistics engine

Shallow embedding of the statistics core of `sync_profile_ioc.py`:
the per-source sample window (`process_update`, lines 318-334), the
frequency and pairwise-diff statistics (`update_calculations`, lines
368-412), and the publication protocol.

Timestamps and derived values are modelled as rationals (`ℚ`); the
Python floats carry no float-specific behaviour that the claims depend
on.  `np.std` publishes a square root, which is not computable over
`ℚ`; statistics records therefore store the radicand (`var`, the mean
of squared deviations exactly as `np.std` computes it) and expose the
published value as the real number `Real.sqrt var`.

The pv-name ↔ device-name bijection built from the YAML config is
collapsed: a source is identified by its name, and the registry is the
configured ordered list of names.
-/

/-- `window_size = 100` (line 49 of the source). -/
def windowSize : ℕ := 100

/-- One source's `data[pv]` entry: `{'times': [...], 'freqs': [...]}`
(line 48). -/
structure Window where
  times : List ℚ
  freqs : List ℚ
deriving DecidableEq

/-- A window as created at startup: both lists empty. -/
def emptyWindow : Window := ⟨[], []⟩

/-- The window mutation performed by `process_update` (lines 322-333)
for a registered source: append the timestamp; if it is not the first,
append `1/dt` for `dt > 0` and `0` otherwise, where
`dt = pv_timestamp - times[-2]`; if `freqs` then exceeds
`window_size`, keep the last `window_size` elements of both lists
(Python `lst[-window_size:]` is `drop (length - windowSize)`). -/
def recordArrival (w : Window) (t : ℚ) : Window :=
  let times := w.times ++ [t]
  match w.times.getLast? with
  | none => { times := times, freqs := w.freqs }
  | some prev =>
    let dt := t - prev
    let freq := if 0 < dt then 1 / dt else 0
    let freqs := w.freqs ++ [freq]
    if windowSize < freqs.length then
      { times := times.drop (times.length - windowSize),
        freqs := freqs.drop (freqs.length - windowSize) }
    else
      { times := times, freqs := freqs }

/-- The window obtained by recording a whole list of arrivals, oldest
first, into an initially empty window. -/
def windowOfList (ts : List ℚ) : Window :=
  ts.foldl recordArrival emptyWindow

/-- The instantaneous frequency derived from two successive
timestamps (lines 326-327). -/
def freqOf (prev t : ℚ) : ℚ :=
  if 0 < t - prev then 1 / (t - prev) else 0

/-- All instantaneous frequencies ever derived from a full arrival
sequence: one per consecutive pair of timestamps. -/
def allFreqs : List ℚ → List ℚ
  | [] => []
  | [_] => []
  | a :: b :: rest => freqOf a b :: allFreqs (b :: rest)

/-! ## Statistics primitives (numpy reductions as used by the code) -/

/-- `np.mean`: sum divided by length. -/
def npMean (xs : List ℚ) : ℚ := xs.sum / xs.length

/-- `np.min`: fold of `min` over the list (0 on the empty list, which
the code never passes). -/
def npMin : List ℚ → ℚ
  | [] => 0
  | x :: xs => xs.foldl min x

/-- `np.max`: fold of `max` over the list. -/
def npMax : List ℚ → ℚ
  | [] => 0
  | x :: xs => xs.foldl max x

/-- The radicand of `np.std`: the mean of the squared deviations from
the mean (`ddof = 0`, i.e. divisor = count). `np.std xs` publishes
`Real.sqrt (npVar xs)`. -/
def npVar (xs : List ℚ) : ℚ := npMean (xs.map fun x => (x - npMean xs) ^ 2)

/-! ## FrequencyStatsCalculator (`update_calculations`, lines 370-386) -/

/-- The five per-source frequency statistics; `var` is the radicand of
the published `StdFreq` value. -/
structure FreqStats where
  instant : ℚ
  avg : ℚ
  min : ℚ
  max : ℚ
  var : ℚ
deriving DecidableEq

/-- The `StdFreq` value the code publishes: `np.std freqs`. -/
noncomputable def FreqStats.std (s : FreqStats) : ℝ := Real.sqrt (s.var : ℝ)

/-- Lines 374-379: if `freqs` is empty nothing is computed or
published; otherwise `instant = freqs[-1]` and the numpy reductions of
the whole list. -/
def freqStatsCalc (freqs : List ℚ) : Option FreqStats :=
  match freqs with
  | [] => none
  | f :: fs =>
    some { instant := (f :: fs).getLastD 0
           avg := npMean (f :: fs)
           min := npMin (f :: fs)
           max := npMax (f :: fs)
           var := npVar (f :: fs) }

/-! ## PairwiseDiffCalculator (`update_calculations`, lines 395-412) -/

/-- The five pair statistics; `var` is the radicand of the published
`StdDiff` value. -/
structure DiffStats where
  current : ℚ
  avg : ℚ
  min : ℚ
  max : ℚ
  var : ℚ
deriving DecidableEq

/-- The `StdDiff` value the code publishes: `np.std diffs`. -/
noncomputable def DiffStats.std (s : DiffStats) : ℝ := Real.sqrt (s.var : ℝ)

/-- Lines 397-412: nothing when either timestamp list is empty;
otherwise `current = times1[-1] - times2[-1]` and numpy reductions of
the positionally zipped differences (the inner `if diffs` of line 402
is kept even though `zip` of two non-empty lists is non-empty). -/
def diffStatsCalc (times1 times2 : List ℚ) : Option DiffStats :=
  if times1 = [] ∨ times2 = [] then none
  else
    let diffs := List.zipWith (fun a b => a - b) times1 times2
    if diffs = [] then none
    else
      some { current := times1.getLastD 0 - times2.getLastD 0
             avg := npMean diffs
             min := npMin diffs
             max := npMax diffs
             var := npVar diffs }

/-! ## Aggregator state and publication protocol -/

/-- A value written to a metric PV.  `np.mean`/`np.min`/`np.max` and
the raw values are rationals published exactly; `np.std` publishes the
square root of its (rational) radicand. -/
inductive PubVal
  | exact (x : ℚ)
  | sqrt (x : ℚ)
deriving DecidableEq

/-- The real number a `PubVal` denotes. -/
noncomputable def PubVal.toReal : PubVal → ℝ
  | .exact x => (x : ℝ)
  | .sqrt x => Real.sqrt (x : ℝ)

/-- One `pv.set` call: metric name and value. -/
abbrev Pub := String × PubVal

/-- The engine state: the configured ordered source list (`names`,
line 31) and each source's window (`data`, line 48; total over names,
only registered names are ever read). -/
structure IOCState where
  names : List String
  data : String → Window

/-- The ordered pair indices `(i, j)` with `i < j < n`, in the
iteration order of the nested loops of lines 389-390. -/
def pairIdx (n : ℕ) : List (ℕ × ℕ) :=
  (List.range n).flatMap fun i => ((List.range n).drop (i + 1)).map fun j => (i, j)

/-- The five `freq_pvs[name].set` calls of lines 382-386, in source
order, skipped for a source whose `freqs` is empty (line 374). -/
def freqPubs (st : IOCState) : List Pub :=
  st.names.flatMap fun name =>
    match freqStatsCalc (st.data name).freqs with
    | none => []
    | some s =>
      [(name ++ ":InstantFreq", PubVal.exact s.instant),
       (name ++ ":AvgFreq", PubVal.exact s.avg),
       (name ++ ":MinFreq", PubVal.exact s.min),
       (name ++ ":MaxFreq", PubVal.exact s.max),
       (name ++ ":StdFreq", PubVal.sqrt s.var)]

/-- The five `diff_pvs[(i, j)].set` calls of lines 408-412 for one
pair of source names, skipped when either window's `times` is empty
(line 397). -/
def diffPair (st : IOCState) (n1 n2 : String) : List Pub :=
  match diffStatsCalc (st.data n1).times (st.data n2).times with
  | none => []
  | some s =>
    [(n1 ++ "_vs_" ++ n2 ++ ":CurrentDiff", PubVal.exact s.current),
     (n1 ++ "_vs_" ++ n2 ++ ":AvgDiff", PubVal.exact s.avg),
     (n1 ++ "_vs_" ++ n2 ++ ":MinDiff", PubVal.exact s.min),
     (n1 ++ "_vs_" ++ n2 ++ ":MaxDiff", PubVal.exact s.max),
     (n1 ++ "_vs_" ++ n2 ++ ":StdDiff", PubVal.sqrt s.var)]

/-- The pair publications of the nested loops of lines 389-412, in
iteration order (`name1 = names[i]`, `name2 = names[j]`). -/
def diffPubs (st : IOCState) : List Pub :=
  (pairIdx st.names.length).flatMap fun p =>
    diffPair st (st.names.getD p.1 "") (st.names.getD p.2 "")

/-- `update_calculations` (lines 368-412): per-source frequency
statistics first, then all pair statistics.  It reads the windows and
returns the publications; it writes no window. -/
def updateCalculations (st : IOCState) : List Pub :=
  freqPubs st ++ diffPubs st

/-- `process_update` (lines 318-334): an unregistered source is
dropped with no state change and no publication; a registered source
has its window updated by `recordArrival`, its `Timestamp` metric set
to the event's timestamp (line 324, before `update_calculations`), and
then one full recomputation pass runs synchronously (line 334). -/
def processUpdate (st : IOCState) (src : String) (t : ℚ) :
    IOCState × List Pub :=
  if src ∈ st.names then
    let st2 : IOCState :=
      { st with data := fun n => if n = src then recordArrival (st.data n) t else st.data n }
    (st2, (src ++ ":Timestamp", PubVal.exact t) :: updateCalculations st2)
  else
    (st, [])

/-! ## Helper lemmas about the window evolution -/

theorem windowOfList_append (ts : List ℚ) (t : ℚ) :
    windowOfList (ts ++ [t]) = recordArrival (windowOfList ts) t := by
  simp [windowOfList, List.foldl_append]

theorem recordArrival_of_none (w : Window) (t : ℚ) (h : w.times.getLast? = none) :
    recordArrival w t = { times := w.times ++ [t], freqs := w.freqs } := by
  simp [recordArrival, h]

theorem recordArrival_of_some (w : Window) (t prev : ℚ) (h : w.times.getLast? = some prev) :
    recordArrival w t =
      if windowSize < w.freqs.length + 1 then
        { times := (w.times ++ [t]).drop (w.times.length + 1 - windowSize),
          freqs := (w.freqs ++ [freqOf prev t]).drop (w.freqs.length + 1 - windowSize) }
      else
        { times := w.times ++ [t], freqs := w.freqs ++ [freqOf prev t] } := by
  simp [recordArrival, h, freqOf]

theorem allFreqs_length (ts : List ℚ) : (allFreqs ts).length = ts.length - 1 := by
  induction ts with
  | nil => rfl
  | cons a rest ih =>
    cases rest with
    | nil => rfl
    | cons b r2 => simpa [allFreqs] using ih

theorem allFreqs_concat (ts : List ℚ) (t prev : ℚ) (h : ts.getLast? = some prev) :
    allFreqs (ts ++ [t]) = allFreqs ts ++ [freqOf prev t] := by
  induction ts with
  | nil => simp at h
  | cons a rest ih =>
    cases rest with
    | nil =>
      simp only [List.getLast?_singleton, Option.some.injEq] at h
      subst h
      rfl
    | cons b r2 =>
      have h' : (b :: r2).getLast? = some prev := by
        simpa [List.getLast?_cons_cons] using h
      simpa [allFreqs] using ih h'

theorem suffix_eq_drop {l₁ l₂ : List ℚ} (h : l₁ <:+ l₂) :
    l₁ = l₂.drop (l₂.length - l₁.length) := by
  obtain ⟨p, rfl⟩ := h
  simp

theorem suffix_append_singleton {l₁ l₂ : List ℚ} (h : l₁ <:+ l₂) (t : ℚ) :
    l₁ ++ [t] <:+ l₂ ++ [t] := by
  obtain ⟨p, rfl⟩ := h
  exact ⟨p, (List.append_assoc p l₁ [t]).symm⟩

/-- The central invariant of the sample window: after any arrival
sequence `ts`, the window's `times` is a suffix of `ts` and its
`freqs` a suffix of the derived frequency sequence, with the exact
lengths: both grow untrimmed while `ts.length ≤ windowSize + 1`
(`freqs` lagging by one), and both sit at exactly `windowSize` once
`ts.length > windowSize + 1`. -/
theorem windowOfList_inv (ts : List ℚ) :
    (windowOfList ts).times <:+ ts ∧
    (windowOfList ts).freqs <:+ allFreqs ts ∧
    (ts.length ≤ windowSize + 1 →
      (windowOfList ts).times.length = ts.length ∧
      (windowOfList ts).freqs.length = ts.length - 1) ∧
    (windowSize + 1 < ts.length →
      (windowOfList ts).times.length = windowSize ∧
      (windowOfList ts).freqs.length = windowSize) := by
  induction ts using List.reverseRecOn with
  | nil =>
    refine ⟨List.nil_suffix, List.nil_suffix, ?_, ?_⟩ <;>
      simp [windowOfList, emptyWindow]
  | append_singleton ts t ih =>
    obtain ⟨hst, hsf, hsmall, hbig⟩ := ih
    rw [windowOfList_append]
    set w := windowOfList ts with hw
    rcases hg : w.times.getLast? with _ | prev
    · -- first arrival: the previous window is empty
      have htimes : w.times = [] := by simpa using hg
      have hts : ts = [] := by
        by_cases hle : ts.length ≤ windowSize + 1
        · have h1 := (hsmall hle).1
          rw [htimes] at h1
          simpa using h1.symm
        · have h1 := (hbig (by omega)).1
          rw [htimes] at h1
          simp [windowSize] at h1
      subst hts
      have hfreqs : w.freqs = [] := by
        have h1 := hsf
        simp only [allFreqs] at h1
        exact List.suffix_nil.mp h1
      rw [recordArrival_of_none w t hg, htimes, hfreqs]
      refine ⟨by simp, by simp [allFreqs], ?_, ?_⟩ <;> simp [windowSize, allFreqs]
    · -- subsequent arrival
      have htne : w.times ≠ [] := by
        intro hnil
        rw [hnil] at hg
        simp at hg
      have htsne : ts ≠ [] := by
        intro hnil
        rw [hnil, List.suffix_nil] at hst
        exact htne hst
      have hprev : ts.getLast? = some prev := by
        rw [List.getLast?_eq_getLast ts htsne]
        have h3 := List.getLast?_eq_getLast w.times htne
        rw [hg] at h3
        injection h3 with h3
        rw [h3, hst.getLast htne]
      have hallf := allFreqs_concat ts t prev hprev
      have htsl : 1 ≤ ts.length := by
        cases ts with
        | nil => exact absurd rfl htsne
        | cons a r => simp
      rw [recordArrival_of_some w t prev hg]
      by_cases htrim : windowSize < w.freqs.length + 1
      · -- the window is full: both lists are trimmed to windowSize
        have hfl : w.freqs.length = windowSize := by
          by_cases hle : ts.length ≤ windowSize + 1
          · have h1 := (hsmall hle).2
            omega
          · exact (hbig (by omega)).2
        have htl : windowSize ≤ w.times.length := by
          by_cases hle : ts.length ≤ windowSize + 1
          · have h1 := (hsmall hle).1
            have h2 := (hsmall hle).2
            omega
          · have h1 := (hbig (by omega)).1
            omega
        have hbig' : windowSize + 1 < ts.length + 1 := by
          by_cases hle : ts.length ≤ windowSize + 1
          · have h2 := (hsmall hle).2
            omega
          · omega
        rw [if_pos htrim]
        refine ⟨?_, ?_, ?_, ?_⟩
        · exact (List.drop_suffix _ _).trans (suffix_append_singleton hst t)
        · rw [hallf]
          exact (List.drop_suffix _ _).trans (suffix_append_singleton hsf _)
        · intro hle
          exfalso
          have hle' : ts.length + 1 ≤ windowSize + 1 := by simpa using hle
          have h2 := (hsmall (by omega)).2
          omega
        · intro _
          constructor <;>
            simp only [List.length_drop, List.length_append, List.length_singleton] <;> omega
      · -- still filling up: both lists simply grow
        have hsmall' : ts.length ≤ windowSize := by
          by_cases hle : ts.length ≤ windowSize + 1
          · have h2 := (hsmall hle).2
            omega
          · have h2 := (hbig (by omega)).2
            omega
        have h1 := (hsmall (by omega)).1
        have h2 := (hsmall (by omega)).2
        rw [if_neg htrim]
        refine ⟨?_, ?_, ?_, ?_⟩
        · exact suffix_append_singleton hst t
        · rw [hallf]
          exact suffix_append_singleton hsf _
        · intro _
          constructor <;>
            simp only [List.length_append, List.length_singleton] <;> omega
        · intro hgt
          exfalso
          have hgt' : windowSize + 1 < ts.length + 1 := by simpa using hgt
          omega
theorem getLast?_of_suffix {l₁ l₂ : List ℚ} (h : l₁ <:+ l₂) (hne : l₁ ≠ []) :
    l₁.getLast? = l₂.getLast? := by
  rw [List.getLast?_eq_getLast l₁ hne, List.getLast?_eq_getLast l₂ (h.ne_nil hne),
    h.getLast hne]

theorem allFreqs_getLast_eq (ts : List ℚ) (h : 2 ≤ ts.length) :
    (allFreqs ts).getLast? =
      some (freqOf (ts.getD (ts.length - 2) 0) (ts.getD (ts.length - 1) 0)) := by
  induction ts with
  | nil => simp at h
  | cons a tl ih =>
    cases tl with
    | nil => simp at h
    | cons b r =>
      cases r with
      | nil => simp [allFreqs, List.getD]
      | cons c r2 =>
        have ihr := ih (by simp)
        have hne : allFreqs (b :: c :: r2) ≠ [] := by
          intro hnil
          have hlen := allFreqs_length (b :: c :: r2)
          rw [hnil] at hlen
          simp at hlen
        obtain ⟨f0, fs, hf⟩ := List.exists_cons_of_ne_nil hne
        rw [show allFreqs (a :: b :: c :: r2) = freqOf a b :: allFreqs (b :: c :: r2) from rfl,
          hf, List.getLast?_cons_cons, ← hf, ihr]
        simp only [List.length_cons]
        rw [show r2.length + 1 + 1 + 1 - 2 = r2.length + 1 by omega,
          show r2.length + 1 + 1 + 1 - 1 = r2.length + 1 + 1 by omega,
          show r2.length + 1 + 1 - 2 = r2.length by omega,
          show r2.length + 1 + 1 - 1 = r2.length + 1 by omega]
        simp [List.getD_cons_succ,
          List.getElem?_eq_getElem
            (show r2.length < (b :: c :: r2).length by simp only [List.length_cons]; omega)]

/-! ## Claim theorems: window invariants (C1, C2, C3) -/

/-- C1, counterexample: after 101 arrivals `len(timestamps)` is 101,
exceeding the capacity of 100 — the trim of lines 331-333 fires only
once `freqs` (which lags `times` by one) exceeds the capacity, so the
claimed bound `len(timestamps) ≤ capacity` fails. -/
theorem c1_counterexample :
    ¬ ((windowOfList (List.replicate (windowSize + 1) (0 : ℚ))).times.length ≤ windowSize) := by
  have h := (windowOfList_inv (List.replicate (windowSize + 1) 0)).2.2.1
  rw [List.length_replicate] at h
  have h1 := (h (by omega)).1
  omega

/-- C1 (amended): after any number of recorded arrivals,
`len(frequencies) ≤ capacity` and `len(timestamps) ≤ capacity + 1`
(`≤ capacity` except at exactly `capacity + 1` total arrivals), and
both sequences hold exactly the most recently recorded entries: each
is the suffix of its full recorded/derived sequence of its current
length. -/
theorem c1_window_bounds (ts : List ℚ) :
    (windowOfList ts).freqs.length ≤ windowSize ∧
    (windowOfList ts).times.length ≤ windowSize + 1 ∧
    (ts.length ≠ windowSize + 1 → (windowOfList ts).times.length ≤ windowSize) ∧
    (windowOfList ts).times = ts.drop (ts.length - (windowOfList ts).times.length) ∧
    (windowOfList ts).freqs =
      (allFreqs ts).drop ((allFreqs ts).length - (windowOfList ts).freqs.length) := by
  obtain ⟨hst, hsf, hsmall, hbig⟩ := windowOfList_inv ts
  refine ⟨?_, ?_, ?_, suffix_eq_drop hst, suffix_eq_drop hsf⟩
  · by_cases hle : ts.length ≤ windowSize + 1
    · have h1 := (hsmall hle).2
      omega
    · have h1 := (hbig (by omega)).2
      omega
  · by_cases hle : ts.length ≤ windowSize + 1
    · have h1 := (hsmall hle).1
      omega
    · have h1 := (hbig (by omega)).1
      omega
  · intro hne
    by_cases hle : ts.length ≤ windowSize + 1
    · have h1 := (hsmall hle).1
      omega
    · have h1 := (hbig (by omega)).1
      omega

theorem c1_witness :
    (windowOfList [(1 : ℚ), 2]).freqs.length ≤ windowSize ∧
    (windowOfList [(1 : ℚ), 2]).times.length ≤ windowSize :=
  ⟨(c1_window_bounds [1, 2]).1, (c1_window_bounds [1, 2]).2.2.1 (by decide)⟩

/-- C2, counterexample: recording 150 arrivals leaves exactly 100
frequencies in the window, not at most 99 — after the first trim both
lists are kept at exactly `window_size` elements. -/
theorem c2_counterexample :
    ¬ ((windowOfList (List.replicate 150 (0 : ℚ))).freqs.length ≤ 99) := by
  have h := ((windowOfList_inv (List.replicate 150 0)).2.2.2 (by simp [windowSize])).2
  simp only [windowSize] at h
  omega

/-- C2 (amended): recording 150 arrivals with capacity 100 leaves
exactly the last 100 timestamps and exactly 100 (not at most 99)
frequencies, with the last frequency derived from the true last two
recorded timestamps. -/
theorem c2_eviction (ts : List ℚ) (h : ts.length = 150) :
    (windowOfList ts).times = ts.drop 50 ∧
    (windowOfList ts).times.length = windowSize ∧
    (windowOfList ts).freqs.length = windowSize ∧
    (windowOfList ts).freqs = (allFreqs ts).drop 49 ∧
    (windowOfList ts).freqs.getLast? =
      some (freqOf (ts.getD 148 0) (ts.getD 149 0)) := by
  obtain ⟨hst, hsf, hsmall, hbig⟩ := windowOfList_inv ts
  have hb := hbig (by simp [windowSize]; omega)
  have ht := suffix_eq_drop hst
  have hf := suffix_eq_drop hsf
  have hfl := allFreqs_length ts
  have e1 : ts.length - (windowOfList ts).times.length = 50 := by
    rw [h, hb.1]
    simp [windowSize]
  have e2 : (allFreqs ts).length - (windowOfList ts).freqs.length = 49 := by
    rw [hfl, h, hb.2]
    simp [windowSize]
  have hne : (windowOfList ts).freqs ≠ [] := by
    intro hnil
    have h2 := hb.2
    rw [hnil] at h2
    simp [windowSize] at h2
  have hlast := allFreqs_getLast_eq ts (by omega)
  rw [h] at hlast
  norm_num at hlast
  exact ⟨by rw [ht, e1], hb.1, hb.2, by rw [hf, e2],
    by rw [getLast?_of_suffix hsf hne, hlast]; simp [List.getD]⟩

theorem c2_witness :
    (windowOfList (List.replicate 150 (0 : ℚ))).times = (List.replicate 150 (0 : ℚ)).drop 50 ∧
    (windowOfList (List.replicate 150 (0 : ℚ))).times.length = windowSize ∧
    (windowOfList (List.replicate 150 (0 : ℚ))).freqs.length = windowSize ∧
    (windowOfList (List.replicate 150 (0 : ℚ))).freqs =
      (allFreqs (List.replicate 150 (0 : ℚ))).drop 49 ∧
    (windowOfList (List.replicate 150 (0 : ℚ))).freqs.getLast? =
      some (freqOf ((List.replicate 150 (0 : ℚ)).getD 148 0)
        ((List.replicate 150 (0 : ℚ)).getD 149 0)) :=
  c2_eviction (List.replicate 150 0) (by simp)

/-- C3, counterexample: after 102 arrivals both lists have exactly 100
elements, so `frequencies` is no longer one shorter than
`timestamps`. -/
theorem c3_counterexample :
    ¬ ((windowOfList (List.replicate (windowSize + 2) (0 : ℚ))).freqs.length =
        (windowOfList (List.replicate (windowSize + 2) (0 : ℚ))).times.length - 1) := by
  have h := (windowOfList_inv (List.replicate (windowSize + 2) 0)).2.2.2
  rw [List.length_replicate] at h
  have h1 := h (by omega)
  simp only [windowSize] at h1 ⊢
  omega

/-- C3 (amended): with at least two recorded timestamps,
`len(frequencies) = len(timestamps) - 1` holds exactly until the
first capacity eviction (total arrivals ≤ capacity + 1); once more
than capacity + 1 arrivals have been recorded, both sequences have
exactly `capacity` elements. -/
theorem c3_freqs_lag (ts : List ℚ) :
    (2 ≤ ts.length → ts.length ≤ windowSize + 1 →
      (windowOfList ts).freqs.length = (windowOfList ts).times.length - 1) ∧
    (windowSize + 1 < ts.length →
      (windowOfList ts).freqs.length = (windowOfList ts).times.length ∧
      (windowOfList ts).times.length = windowSize) := by
  obtain ⟨hst, hsf, hsmall, hbig⟩ := windowOfList_inv ts
  constructor
  · intro _ hle
    have ha := (hsmall hle).1
    have hb := (hsmall hle).2
    omega
  · intro hgt
    have ha := (hbig hgt).1
    have hb := (hbig hgt).2
    omega

theorem c3_witness :
    (windowOfList [(1 : ℚ), 2]).freqs.length = (windowOfList [(1 : ℚ), 2]).times.length - 1 :=
  (c3_freqs_lag [1, 2]).1 (by decide) (by decide)

/-! ## Claim theorem: frequency derivation (C6) -/

/-- C6: on every arrival that is not the source's first, with
`dt = timestamp - previous_timestamp`, the frequency appended to the
window (its last element after `RecordArrival`) is `1/dt` when
`dt > 0` and `0` when `dt ≤ 0`; `recordArrival` is total, so no
timestamp — monotonic or not — is an error. -/
theorem c6_freq_rule (w : Window) (t prev : ℚ) (h : w.times.getLast? = some prev) :
    (0 < t - prev → (recordArrival w t).freqs.getLast? = some (1 / (t - prev))) ∧
    (t - prev ≤ 0 → (recordArrival w t).freqs.getLast? = some 0) := by
  have key : (recordArrival w t).freqs.getLast? = some (freqOf prev t) := by
    rw [recordArrival_of_some w t prev h]
    by_cases htrim : windowSize < w.freqs.length + 1
    · rw [if_pos htrim]
      have hsuffix : (w.freqs ++ [freqOf prev t]).drop (w.freqs.length + 1 - windowSize) <:+
          w.freqs ++ [freqOf prev t] := List.drop_suffix _ _
      have hne : (w.freqs ++ [freqOf prev t]).drop (w.freqs.length + 1 - windowSize) ≠ [] := by
        intro hnil
        have hlen := congrArg List.length hnil
        simp only [List.length_drop, List.length_append, List.length_singleton,
          List.length_nil] at hlen
        simp only [windowSize] at hlen htrim
        omega
      rw [getLast?_of_suffix hsuffix hne, List.getLast?_concat]
    · rw [if_neg htrim, List.getLast?_concat]
  constructor
  · intro hpos
    rw [key, freqOf, if_pos hpos]
  · intro hnonpos
    rw [key, freqOf, if_neg (not_lt.mpr hnonpos)]

theorem c6_witness : (recordArrival ⟨[5], []⟩ 5).freqs.getLast? = some 0 :=
  (c6_freq_rule ⟨[5], []⟩ 5 5 (by decide)).2 (by norm_num)

/-! ## Statistics helper lemmas -/

theorem foldl_min_mem (l : List ℚ) (a : ℚ) : l.foldl min a ∈ a :: l := by
  induction l generalizing a with
  | nil => simp
  | cons b t ih =>
    rw [List.foldl_cons]
    rcases List.mem_cons.mp (ih (min a b)) with h1 | h1
    · rcases min_choice a b with hm | hm
      · rw [h1, hm]
        exact List.mem_cons_self a _
      · rw [h1, hm]
        exact List.mem_cons_of_mem a (List.mem_cons_self b t)
    · exact List.mem_cons_of_mem a (List.mem_cons_of_mem b h1)

theorem foldl_min_le (l : List ℚ) (a : ℚ) : ∀ x ∈ a :: l, l.foldl min a ≤ x := by
  induction l generalizing a with
  | nil =>
    intro x hx
    simp only [List.mem_singleton] at hx
    simp [hx]
  | cons b t ih =>
    intro x hx
    rw [List.foldl_cons]
    have hc := ih (min a b) (min a b) (List.mem_cons_self _ _)
    rcases List.mem_cons.mp hx with h1 | h1
    · rw [h1]
      exact le_trans hc (min_le_left a b)
    · rcases List.mem_cons.mp h1 with h2 | h2
      · rw [h2]
        exact le_trans hc (min_le_right a b)
      · exact ih (min a b) x (List.mem_cons_of_mem _ h2)

theorem foldl_max_mem (l : List ℚ) (a : ℚ) : l.foldl max a ∈ a :: l := by
  induction l generalizing a with
  | nil => simp
  | cons b t ih =>
    rw [List.foldl_cons]
    rcases List.mem_cons.mp (ih (max a b)) with h1 | h1
    · rcases max_choice a b with hm | hm
      · rw [h1, hm]
        exact List.mem_cons_self a _
      · rw [h1, hm]
        exact List.mem_cons_of_mem a (List.mem_cons_self b t)
    · exact List.mem_cons_of_mem a (List.mem_cons_of_mem b h1)

theorem le_foldl_max (l : List ℚ) (a : ℚ) : ∀ x ∈ a :: l, x ≤ l.foldl max a := by
  induction l generalizing a with
  | nil =>
    intro x hx
    simp only [List.mem_singleton] at hx
    simp [hx]
  | cons b t ih =>
    intro x hx
    rw [List.foldl_cons]
    have hc := ih (max a b) (max a b) (List.mem_cons_self _ _)
    rcases List.mem_cons.mp hx with h1 | h1
    · rw [h1]
      exact le_trans (le_max_left a b) hc
    · rcases List.mem_cons.mp h1 with h2 | h2
      · rw [h2]
        exact le_trans (le_max_right a b) hc
      · exact ih (max a b) x (List.mem_cons_of_mem _ h2)

theorem npMin_mem : ∀ (xs : List ℚ), xs ≠ [] → npMin xs ∈ xs
  | [], h => absurd rfl h
  | x :: t, _ => foldl_min_mem t x

theorem npMin_le (xs : List ℚ) : ∀ y ∈ xs, npMin xs ≤ y := by
  cases xs with
  | nil =>
    intro y hy
    simp at hy
  | cons x t => exact fun y hy => foldl_min_le t x y hy

theorem npMax_mem : ∀ (xs : List ℚ), xs ≠ [] → npMax xs ∈ xs
  | [], h => absurd rfl h
  | x :: t, _ => foldl_max_mem t x

theorem le_npMax (xs : List ℚ) : ∀ y ∈ xs, y ≤ npMax xs := by
  cases xs with
  | nil =>
    intro y hy
    simp at hy
  | cons x t => exact fun y hy => le_foldl_max t x y hy

theorem npVar_eq (xs : List ℚ) :
    npVar xs = (xs.map fun x => (x - xs.sum / xs.length) ^ 2).sum / xs.length := by
  simp [npVar, npMean, List.length_map]

/-! ## Spec-side statistics definitions (for the refinement claims) -/

/-- The spec's population standard deviation of a rational sequence:
the square root of the sum of squared deviations from the arithmetic
mean divided by the count (divisor = count, not count − 1). -/
noncomputable def popStd (xs : List ℚ) : ℝ :=
  Real.sqrt (((xs.map fun x => (x - xs.sum / xs.length) ^ 2).sum / xs.length : ℚ) : ℝ)

/-- The spec's positionally paired difference sequence:
`diffs[k] = a[k] − b[k]` for `k` from 0 up to
`min (len a) (len b) − 1`. -/
def pairedDiffs (a b : List ℚ) : List ℚ :=
  (List.range (min a.length b.length)).map fun k => a.getD k 0 - b.getD k 0

theorem zipWith_sub_eq_pairedDiffs (a b : List ℚ) :
    List.zipWith (fun x y => x - y) a b = pairedDiffs a b := by
  induction a generalizing b with
  | nil => simp [pairedDiffs]
  | cons x xs ih =>
    cases b with
    | nil => simp [pairedDiffs]
    | cons y ys =>
      rw [List.zipWith_cons_cons, ih ys]
      simp only [pairedDiffs, List.length_cons]
      rw [show min (xs.length + 1) (ys.length + 1) = min xs.length ys.length + 1 by omega,
        List.range_succ_eq_map]
      simp [List.map_map, Function.comp, List.getD_cons_succ]

/-- The spec of §4.2 for a non-empty `freqs` sequence: `instant` is
the most recent element; `avg` the arithmetic mean; `min`/`max` the
minimum/maximum over the full sequence; the published std value the
population standard deviation over the same sequence. -/
def FreqStatsSpec (freqs : List ℚ) (s : FreqStats) : Prop :=
  some s.instant = freqs.getLast? ∧
  s.avg = freqs.sum / freqs.length ∧
  s.min ∈ freqs ∧ (∀ x ∈ freqs, s.min ≤ x) ∧
  s.max ∈ freqs ∧ (∀ x ∈ freqs, x ≤ s.max) ∧
  s.std = popStd freqs

/-- The spec of §4.3 for two non-empty timestamp sequences: `current`
is the most recent timestamp of `a` minus the most recent of `b`, and
the aggregates are the population statistics of the positionally
paired difference sequence. -/
def DiffStatsSpec (t1 t2 : List ℚ) (s : DiffStats) : Prop :=
  (∃ x y, t1.getLast? = some x ∧ t2.getLast? = some y ∧ s.current = x - y) ∧
  s.avg = (pairedDiffs t1 t2).sum / (pairedDiffs t1 t2).length ∧
  s.min ∈ pairedDiffs t1 t2 ∧ (∀ x ∈ pairedDiffs t1 t2, s.min ≤ x) ∧
  s.max ∈ pairedDiffs t1 t2 ∧ (∀ x ∈ pairedDiffs t1 t2, x ≤ s.max) ∧
  s.std = popStd (pairedDiffs t1 t2)

/-! ## Claim theorems: the two calculators (C4, C5) -/

/-- C4: `FrequencyStatsCalculator` returns the empty sentinel exactly
when `freqs` is empty; otherwise `instant` is the most recent
frequency, `avg`/`min`/`max` the arithmetic mean, minimum and maximum
over the full current sequence, and the published std the population
standard deviation (divisor = count) over that sequence. -/
theorem c4_freq_stats (freqs : List ℚ) :
    (freqStatsCalc freqs = none ↔ freqs = []) ∧
    (∀ s, freqStatsCalc freqs = some s → FreqStatsSpec freqs s) := by
  constructor
  · cases freqs <;> simp [freqStatsCalc]
  · intro s hs
    cases freqs with
    | nil => simp [freqStatsCalc] at hs
    | cons f fs =>
      simp only [freqStatsCalc, Option.some.injEq] at hs
      subst hs
      refine ⟨?_, rfl, npMin_mem _ (List.cons_ne_nil f fs), npMin_le _,
        npMax_mem _ (List.cons_ne_nil f fs), le_npMax _, ?_⟩
      · rw [List.getLastD_eq_getLast?, List.getLast?_eq_getLast (f :: fs) (List.cons_ne_nil f fs)]
        rfl
      · simp [FreqStats.std, popStd, npVar_eq]

theorem c4_witness : FreqStatsSpec [(1 : ℚ), 2]
    { instant := 2, avg := 3/2, min := 1, max := 2, var := 1/4 } :=
  (c4_freq_stats [1, 2]).2 _ (by norm_num [freqStatsCalc, npMean, npMin, npMax, npVar])

theorem diffStatsCalc_cons (x y : ℚ) (xs ys : List ℚ) :
    diffStatsCalc (x :: xs) (y :: ys) =
      some { current := (x :: xs).getLastD 0 - (y :: ys).getLastD 0
             avg := npMean (List.zipWith (fun a b => a - b) (x :: xs) (y :: ys))
             min := npMin (List.zipWith (fun a b => a - b) (x :: xs) (y :: ys))
             max := npMax (List.zipWith (fun a b => a - b) (x :: xs) (y :: ys))
             var := npVar (List.zipWith (fun a b => a - b) (x :: xs) (y :: ys)) } := by
  simp [diffStatsCalc]

/-- C5: `PairwiseDiffCalculator` returns the empty sentinel exactly
when either timestamp list is empty; otherwise `current` is the most
recent timestamp of `a` minus the most recent of `b`, and the
aggregate `avg`/`min`/`max`/std are population statistics over the
positionally paired difference sequence. -/
theorem c5_diff_stats (t1 t2 : List ℚ) :
    (diffStatsCalc t1 t2 = none ↔ t1 = [] ∨ t2 = []) ∧
    (∀ s, diffStatsCalc t1 t2 = some s → DiffStatsSpec t1 t2 s) := by
  constructor
  · constructor
    · intro hnone
      by_contra hne
      push_neg at hne
      obtain ⟨h1, h2⟩ := hne
      obtain ⟨x, xs, rfl⟩ := List.exists_cons_of_ne_nil h1
      obtain ⟨y, ys, rfl⟩ := List.exists_cons_of_ne_nil h2
      simp [diffStatsCalc] at hnone
    · intro h
      rcases h with rfl | rfl
      · simp [diffStatsCalc]
      · simp [diffStatsCalc]
  · intro s hs
    rcases t1 with _ | ⟨x, xs⟩
    · simp [diffStatsCalc] at hs
    rcases t2 with _ | ⟨y, ys⟩
    · simp [diffStatsCalc] at hs
    rw [diffStatsCalc_cons] at hs
    have hs2 := Option.some.inj hs
    subst hs2
    have hzip : (x - y) :: List.zipWith (fun a b => a - b) xs ys =
        pairedDiffs (x :: xs) (y :: ys) := by
      rw [← List.zipWith_cons_cons, zipWith_sub_eq_pairedDiffs]
    have hpne : pairedDiffs (x :: xs) (y :: ys) ≠ [] := by
      rw [← hzip]
      exact List.cons_ne_nil _ _
    refine ⟨?_, ?_, ?_, ?_, ?_, ?_, ?_⟩
    · refine ⟨(x :: xs).getLastD 0, (y :: ys).getLastD 0, ?_, ?_, rfl⟩
      · rw [List.getLastD_eq_getLast?,
          List.getLast?_eq_getLast (x :: xs) (List.cons_ne_nil x xs)]
        rfl
      · rw [List.getLastD_eq_getLast?,
          List.getLast?_eq_getLast (y :: ys) (List.cons_ne_nil y ys)]
        rfl
    · show npMean ((x - y) :: List.zipWith (fun a b => a - b) xs ys) = _
      rw [hzip]
      rfl
    · show npMin ((x - y) :: List.zipWith (fun a b => a - b) xs ys) ∈ _
      rw [hzip]
      exact npMin_mem _ hpne
    · show ∀ z ∈ pairedDiffs (x :: xs) (y :: ys),
        npMin ((x - y) :: List.zipWith (fun a b => a - b) xs ys) ≤ z
      rw [hzip]
      exact npMin_le _
    · show npMax ((x - y) :: List.zipWith (fun a b => a - b) xs ys) ∈ _
      rw [hzip]
      exact npMax_mem _ hpne
    · show ∀ z ∈ pairedDiffs (x :: xs) (y :: ys),
        z ≤ npMax ((x - y) :: List.zipWith (fun a b => a - b) xs ys)
      rw [hzip]
      exact le_npMax _
    · show DiffStats.std _ = _
      simp only [DiffStats.std, popStd, ← npVar_eq]
      rw [zipWith_sub_eq_pairedDiffs]

theorem c5_witness : DiffStatsSpec [(1 : ℚ), 2, 3] [11/10, 23/10]
    { current := 3 - 23/10, avg := -1/5, min := -3/10, max := -1/10, var := 1/100 } :=
  (c5_diff_stats _ _).2 _ (by norm_num [diffStatsCalc, npMean, npMin, npMax, npVar]; simp)

/-! ## Aggregator helper lemmas -/

theorem flatMap_congr {α β : Type} (l : List α) (f g : α → List β)
    (h : ∀ a ∈ l, f a = g a) : l.flatMap f = l.flatMap g := by
  induction l with
  | nil => rfl
  | cons a tl ih =>
    rw [List.flatMap_cons, List.flatMap_cons, h a (List.mem_cons_self a tl),
      ih fun x hx => h x (List.mem_cons_of_mem a hx)]

theorem pairIdx_mem (n : ℕ) (p : ℕ × ℕ) (hp : p ∈ pairIdx n) : p.1 < n ∧ p.2 < n := by
  unfold pairIdx at hp
  rw [List.mem_flatMap] at hp
  obtain ⟨i, hi, hmem⟩ := hp
  rw [List.mem_map] at hmem
  obtain ⟨j, hj, rfl⟩ := hmem
  exact ⟨List.mem_range.mp hi, List.mem_range.mp (List.mem_of_mem_drop hj)⟩

theorem getD_mem_of_lt (l : List String) (i : ℕ) (h : i < l.length) : l.getD i "" ∈ l := by
  rw [List.getD_eq_getElem?_getD, List.getElem?_eq_getElem h, Option.getD_some]
  exact List.getElem_mem h

theorem mem_freqPubs (st : IOCState) (name : String) (hn : name ∈ st.names) (s : FreqStats)
    (hs : freqStatsCalc (st.data name).freqs = some s) (pub : Pub)
    (hpub : pub ∈ [(name ++ ":InstantFreq", PubVal.exact s.instant),
      (name ++ ":AvgFreq", PubVal.exact s.avg),
      (name ++ ":MinFreq", PubVal.exact s.min),
      (name ++ ":MaxFreq", PubVal.exact s.max),
      (name ++ ":StdFreq", PubVal.sqrt s.var)]) :
    pub ∈ freqPubs st := by
  unfold freqPubs
  rw [List.mem_flatMap]
  refine ⟨name, hn, ?_⟩
  rw [hs]
  exact hpub

theorem mem_diffPubs (st : IOCState) (p : ℕ × ℕ) (hp : p ∈ pairIdx st.names.length)
    (s : DiffStats)
    (hs : diffStatsCalc (st.data (st.names.getD p.1 "")).times
      (st.data (st.names.getD p.2 "")).times = some s) (pub : Pub)
    (hpub : pub ∈ [(st.names.getD p.1 "" ++ "_vs_" ++ st.names.getD p.2 "" ++ ":CurrentDiff",
        PubVal.exact s.current),
      (st.names.getD p.1 "" ++ "_vs_" ++ st.names.getD p.2 "" ++ ":AvgDiff", PubVal.exact s.avg),
      (st.names.getD p.1 "" ++ "_vs_" ++ st.names.getD p.2 "" ++ ":MinDiff", PubVal.exact s.min),
      (st.names.getD p.1 "" ++ "_vs_" ++ st.names.getD p.2 "" ++ ":MaxDiff", PubVal.exact s.max),
      (st.names.getD p.1 "" ++ "_vs_" ++ st.names.getD p.2 "" ++ ":StdDiff", PubVal.sqrt s.var)]) :
    pub ∈ diffPubs st := by
  unfold diffPubs
  rw [List.mem_flatMap]
  refine ⟨p, hp, ?_⟩
  unfold diffPair
  rw [hs]
  exact hpub

/-! ## Claim theorems: the aggregator protocol (C7, C8, C9, C10) -/

/-- C7: an event for a source identifier absent from the registry
leaves every window unchanged and publishes nothing — no recomputation
pass runs, and `processUpdate` is total, so the event is not an
error. -/
theorem c7_unregistered (st : IOCState) (src : String) (t : ℚ) (h : src ∉ st.names) :
    processUpdate st src t = (st, []) := by
  simp [processUpdate, h]

theorem c7_witness :
    processUpdate ⟨["A"], fun _ => emptyWindow⟩ "B" 1 =
      (⟨["A"], fun _ => emptyWindow⟩, []) :=
  c7_unregistered _ _ _ (by decide)

/-- C8: an event from a registered source synchronously drives one
full recomputation pass before returning: the returned publication
list is the `Timestamp` echo followed by the complete
`update_calculations` output over the updated state, and that pass
publishes the five frequency metrics of every registered source with
non-empty statistics and the five diff metrics of every ordered pair
`(i < j)` (in configured order) with non-empty statistics. -/
theorem c8_full_pass (st : IOCState) (src : String) (t : ℚ) (h : src ∈ st.names) :
    ∃ st2 : IOCState,
      processUpdate st src t =
        (st2, (src ++ ":Timestamp", PubVal.exact t) :: (freqPubs st2 ++ diffPubs st2)) ∧
      (∀ name ∈ st2.names, ∀ s, freqStatsCalc (st2.data name).freqs = some s →
        (name ++ ":InstantFreq", PubVal.exact s.instant) ∈ freqPubs st2 ∧
        (name ++ ":AvgFreq", PubVal.exact s.avg) ∈ freqPubs st2 ∧
        (name ++ ":MinFreq", PubVal.exact s.min) ∈ freqPubs st2 ∧
        (name ++ ":MaxFreq", PubVal.exact s.max) ∈ freqPubs st2 ∧
        (name ++ ":StdFreq", PubVal.sqrt s.var) ∈ freqPubs st2) ∧
      (∀ p ∈ pairIdx st2.names.length, ∀ s,
        diffStatsCalc (st2.data (st2.names.getD p.1 "")).times
            (st2.data (st2.names.getD p.2 "")).times = some s →
        (st2.names.getD p.1 "" ++ "_vs_" ++ st2.names.getD p.2 "" ++ ":CurrentDiff",
          PubVal.exact s.current) ∈ diffPubs st2 ∧
        (st2.names.getD p.1 "" ++ "_vs_" ++ st2.names.getD p.2 "" ++ ":AvgDiff",
          PubVal.exact s.avg) ∈ diffPubs st2 ∧
        (st2.names.getD p.1 "" ++ "_vs_" ++ st2.names.getD p.2 "" ++ ":MinDiff",
          PubVal.exact s.min) ∈ diffPubs st2 ∧
        (st2.names.getD p.1 "" ++ "_vs_" ++ st2.names.getD p.2 "" ++ ":MaxDiff",
          PubVal.exact s.max) ∈ diffPubs st2 ∧
        (st2.names.getD p.1 "" ++ "_vs_" ++ st2.names.getD p.2 "" ++ ":StdDiff",
          PubVal.sqrt s.var) ∈ diffPubs st2) := by
  refine ⟨(processUpdate st src t).1, ?_, ?_, ?_⟩
  · simp [processUpdate, h, updateCalculations]
  · intro name hn s hs
    exact ⟨mem_freqPubs _ name hn s hs _ (by simp),
      mem_freqPubs _ name hn s hs _ (by simp),
      mem_freqPubs _ name hn s hs _ (by simp),
      mem_freqPubs _ name hn s hs _ (by simp),
      mem_freqPubs _ name hn s hs _ (by simp)⟩
  · intro p hp s hs
    exact ⟨mem_diffPubs _ p hp s hs _ (by simp),
      mem_diffPubs _ p hp s hs _ (by simp),
      mem_diffPubs _ p hp s hs _ (by simp),
      mem_diffPubs _ p hp s hs _ (by simp),
      mem_diffPubs _ p hp s hs _ (by simp)⟩

theorem c8_witness :
    ∃ st2 : IOCState,
      processUpdate ⟨["A"], fun _ => emptyWindow⟩ "A" 1 =
        (st2, ("A" ++ ":Timestamp", PubVal.exact 1) :: (freqPubs st2 ++ diffPubs st2)) ∧
      (∀ name ∈ st2.names, ∀ s, freqStatsCalc (st2.data name).freqs = some s →
        (name ++ ":InstantFreq", PubVal.exact s.instant) ∈ freqPubs st2 ∧
        (name ++ ":AvgFreq", PubVal.exact s.avg) ∈ freqPubs st2 ∧
        (name ++ ":MinFreq", PubVal.exact s.min) ∈ freqPubs st2 ∧
        (name ++ ":MaxFreq", PubVal.exact s.max) ∈ freqPubs st2 ∧
        (name ++ ":StdFreq", PubVal.sqrt s.var) ∈ freqPubs st2) ∧
      (∀ p ∈ pairIdx st2.names.length, ∀ s,
        diffStatsCalc (st2.data (st2.names.getD p.1 "")).times
            (st2.data (st2.names.getD p.2 "")).times = some s →
        (st2.names.getD p.1 "" ++ "_vs_" ++ st2.names.getD p.2 "" ++ ":CurrentDiff",
          PubVal.exact s.current) ∈ diffPubs st2 ∧
        (st2.names.getD p.1 "" ++ "_vs_" ++ st2.names.getD p.2 "" ++ ":AvgDiff",
          PubVal.exact s.avg) ∈ diffPubs st2 ∧
        (st2.names.getD p.1 "" ++ "_vs_" ++ st2.names.getD p.2 "" ++ ":MinDiff",
          PubVal.exact s.min) ∈ diffPubs st2 ∧
        (st2.names.getD p.1 "" ++ "_vs_" ++ st2.names.getD p.2 "" ++ ":MaxDiff",
          PubVal.exact s.max) ∈ diffPubs st2 ∧
        (st2.names.getD p.1 "" ++ "_vs_" ++ st2.names.getD p.2 "" ++ ":StdDiff",
          PubVal.sqrt s.var) ∈ diffPubs st2) :=
  c8_full_pass ⟨["A"], fun _ => emptyWindow⟩ "A" 1 (by decide)

/-- C9: recomputation is a pure function of the current window state:
`update_calculations` writes no window and returns equal publication
lists on any two states with the same registry whose windows agree on
every registered source — in particular, running it twice without an
intervening event yields identical results. -/
theorem c9_pure_recompute (st st2 : IOCState) (hn : st.names = st2.names)
    (hd : ∀ name ∈ st.names, st.data name = st2.data name) :
    updateCalculations st = updateCalculations st2 := by
  unfold updateCalculations freqPubs diffPubs
  rw [← hn]
  congr 1
  · exact flatMap_congr _ _ _ fun name hname => by rw [hd name hname]
  · exact flatMap_congr _ _ _ fun p hp => by
      obtain ⟨h1, h2⟩ := pairIdx_mem _ p hp
      unfold diffPair
      rw [hd _ (getD_mem_of_lt _ _ h1), hd _ (getD_mem_of_lt _ _ h2)]

theorem c9_witness :
    updateCalculations ⟨["A"], fun _ => emptyWindow⟩ =
      updateCalculations ⟨["A"], fun n => if n = "A" then emptyWindow else ⟨[1], []⟩⟩ :=
  c9_pure_recompute _ _ rfl (by
    intro name hname
    rw [List.mem_singleton] at hname
    subst hname
    simp)

/-- C10: for every event from a registered source — including the very
first arrival of that source — the `Timestamp` metric is published
with the event's timestamp as the first publication, before the
recomputation pass's output; on a first arrival the source's own
frequency statistics are still empty and hence skipped. -/
theorem c10_timestamp_echo (st : IOCState) (src : String) (t : ℚ) (h : src ∈ st.names) :
    (processUpdate st src t).2.head? = some (src ++ ":Timestamp", PubVal.exact t) ∧
    (processUpdate st src t).2 =
      (src ++ ":Timestamp", PubVal.exact t) :: updateCalculations (processUpdate st src t).1 ∧
    (st.data src = emptyWindow →
      freqStatsCalc ((processUpdate st src t).1.data src).freqs = none) := by
  refine ⟨by simp [processUpdate, h], by simp [processUpdate, h], ?_⟩
  intro hempty
  have hdata : (processUpdate st src t).1.data src = recordArrival (st.data src) t := by
    simp [processUpdate, h]
  rw [hdata, hempty, recordArrival_of_none emptyWindow t (by simp [emptyWindow])]
  simp [emptyWindow, freqStatsCalc]

theorem c10_witness :
    (processUpdate ⟨["A"], fun _ => emptyWindow⟩ "A" 1).2.head? =
      some ("A" ++ ":Timestamp", PubVal.exact 1) ∧
    (processUpdate ⟨["A"], fun _ => emptyWindow⟩ "A" 1).2 =
      ("A" ++ ":Timestamp", PubVal.exact 1) ::
        updateCalculations (processUpdate ⟨["A"], fun _ => emptyWindow⟩ "A" 1).1 ∧
    ((⟨["A"], fun _ => emptyWindow⟩ : IOCState).data "A" = emptyWindow →
      freqStatsCalc ((processUpdate ⟨["A"], fun _ => emptyWindow⟩ "A" 1).1.data "A").freqs =
        none) :=
  c10_timestamp_echo ⟨["A"], fun _ => emptyWindow⟩ "A" 1 (by decide)

example : windowOfList [1, 2, 3] = ⟨[1, 2, 3], [1, 1]⟩ := by
  norm_num [windowOfList, recordArrival, emptyWindow, windowSize]
example : windowOfList [5, 5] = ⟨[5, 5], [0]⟩ := by
  norm_num [windowOfList, recordArrival, emptyWindow, windowSize]
example : freqStatsCalc [1, 2] =
    some { instant := 2, avg := 3/2, min := 1, max := 2, var := 1/4 } := by
  norm_num [freqStatsCalc, npMean, npMin, npMax, npVar]
example : pairIdx 3 = [(0, 1), (0, 2), (1, 2)] := by decide
example : diffStatsCalc [1, 2, 3] [11/10, 23/10] =
    some { current := 3 - 23/10, avg := -1/5, min := -3/10, max := -1/10, var := 1/100 } := by
  norm_num [diffStatsCalc, npMean, npMin, npMax, npVar]
  simp
